import Mathlib

/-!
Verification development for the `typed-tape` test-harness specification.

The repository ships only the public declaration surface (`src/index.d.ts`);
the behavioural engine (scheduler, test-unit lifecycle, assertion recorder,
deep-equality comparator) is described by the specification.  Definitions
below that carry a doc comment starting with `Modelled from the spec:` embed
that missing behaviour faithfully from the specification's words; the
signature tables at the end are transcribed directly from `src/index.d.ts`.
-/

namespace TypedTape

/-- Modelled from the spec: the JavaScript value universe the assertion
comparators operate on.  Objects are represented by a reference identity
(a numeric id into a heap); primitives carry their payload.  (The spec
treats comparison algorithms abstractly; numbers are modelled as integers.) -/
inductive JSVal where
  | undef : JSVal
  | null : JSVal
  | boolean : Bool → JSVal
  | number : Int → JSVal
  | str : String → JSVal
  | obj : Nat → JSVal
deriving DecidableEq, Repr

/-- Modelled from the spec: strict (`===`) comparison — "identity/primitive
strict comparison — no coercion".  Values of different kinds are never equal;
objects compare by reference identity. -/
def strictEq : JSVal → JSVal → Bool
  | .undef, .undef => true
  | .null, .null => true
  | .boolean a, .boolean b => a == b
  | .number a, .number b => a == b
  | .str a, .str b => a == b
  | .obj a, .obj b => a == b
  | _, _ => false

/-- Modelled from the spec: numeric coercion used by loose (`==`) equality. -/
def toNum : JSVal → Option Int
  | .null => some 0
  | .boolean b => some (if b then 1 else 0)
  | .number n => some n
  | .str s => s.toInt?
  | _ => none

/-- Modelled from the spec: "type-coercing equality" used at the leaves of the
loose deep-equality family.  Same-kind values compare as in `strictEq`;
`null`/`undefined` are loosely equal; mixed primitives compare after numeric
coercion; objects never coerce in this model. -/
def looseEq : JSVal → JSVal → Bool
  | .undef, .undef => true
  | .null, .null => true
  | .undef, .null => true
  | .null, .undef => true
  | .boolean a, .boolean b => a == b
  | .str a, .str b => a == b
  | .obj a, .obj b => a == b
  | a, b =>
    match toNum a, toNum b with
    | some x, some y => x == y
    | _, _ => false

/-- Modelled from the spec: one Assertion Record — "ok (boolean), description
(string, optional), operator kind"; `skipped` marks skip-type records. -/
structure Rec where
  ok : Bool
  skipped : Bool
  msg : Option String
  op : String
deriving DecidableEq, Repr

/-- Modelled from the spec: the per-unit lifecycle state — current assertion
count, completion flag, optional declared plan, and the ordered list of
assertion records. -/
structure UnitState where
  count : Nat
  finished : Bool
  planned : Option Nat
  records : List Rec
deriving DecidableEq, Repr

/-- The state of a freshly created test unit. -/
def initState : UnitState := ⟨0, false, none, []⟩

/-- Record produced for an ordinary assertion with outcome `b`. -/
def okRec (b : Bool) : Rec := ⟨b, false, none, "ok"⟩

/-- Synthetic failing record for an assertion issued after completion. -/
def afterEndRec : Rec := ⟨false, false, some "assertion after end", "fail"⟩

/-- Synthetic failing record for a second `end()` call. -/
def endTwiceRec : Rec := ⟨false, false, some "end called twice", "fail"⟩

/-- Synthetic failing record for declaring a plan twice or after completion. -/
def planTwiceRec : Rec := ⟨false, false, some "plan declared twice", "fail"⟩

/-- Modelled from the spec: the primitive `record` operation — appends one
record, increments the unit's assertion count, and auto-completes the unit
the instant the count reaches a declared plan. -/
def rawRecord (s : UnitState) (r : Rec) : UnitState :=
  { count := s.count + 1
    finished := s.finished ||
      (match s.planned with
       | some n => decide (n ≤ s.count + 1)
       | none => false)
    planned := s.planned
    records := s.records ++ [r] }

/-- Modelled from the spec: recording an assertion on a unit.  Asserting after
completion is itself recorded as a synthetic failing assertion, never
dropped and never thrown. -/
def doRecord (s : UnitState) (r : Rec) : UnitState :=
  if s.finished then rawRecord s afterEndRec else rawRecord s r

/-- Modelled from the spec: a comparison-style assertion call with outcome
`b`, description `msg` and operator kind `op`. -/
def doAssert (s : UnitState) (b : Bool) (msg : Option String) (op : String) :
    UnitState :=
  doRecord s ⟨b, false, msg, op⟩

/-- Modelled from the spec: explicit `end()`.  A second call "produces exactly
one additional failing diagnostic and does not decrement or corrupt prior
counts"; otherwise the unit completes. -/
def doEnd (s : UnitState) : UnitState :=
  if s.finished then rawRecord s endTwiceRec
  else { s with finished := true }

/-- Modelled from the spec: `plan(n)` — "Fails (harness-level assertion
failure) if called more than once, or if called after the count has already
been exceeded"; otherwise declares the plan (auto-completing at once if the
count already reached it). -/
def doPlan (s : UnitState) (n : Nat) : UnitState :=
  if s.planned.isSome || s.finished then rawRecord s planTwiceRec
  else { s with planned := some n, finished := decide (n ≤ s.count) }

/-- One assertion call with outcome `b` using the default operator. -/
def stepA (s : UnitState) (b : Bool) : UnitState :=
  doAssert s b none "ok"

/-- Run a sequence of assertion calls against a unit, in call order. -/
def runAsserts (s : UnitState) (bs : List Bool) : UnitState :=
  bs.foldl stepA s

/-- A fresh unit that declared `plan n` before any assertion ran. -/
def planInit (n : Nat) : UnitState := doPlan initState n

/-- Modelled from the spec: the calls a test body can issue on its unit
that participate in the protocol-violation taxonomy. -/
inductive Call where
  | assertC : Bool → Call
  | endC : Call
  | planC : Nat → Call
deriving DecidableEq, Repr

/-- Dispatch one call against the unit state. -/
def stepCall (s : UnitState) (c : Call) : UnitState :=
  match c with
  | .assertC b => stepA s b
  | .endC => doEnd s
  | .planC n => doPlan s n

/-- Modelled from the spec: the protocol violations — assertion after
completion (which covers exceeding a declared plan), double `end()`, plan
declared twice or after completion. -/
def isViolation (s : UnitState) (c : Call) : Bool :=
  match c with
  | .assertC _ => s.finished
  | .endC => s.finished
  | .planC _ => s.planned.isSome || s.finished

/-- The synthetic failing record a given violation produces. -/
def violationRec (c : Call) : Rec :=
  match c with
  | .assertC _ => afterEndRec
  | .endC => endTwiceRec
  | .planC _ => planTwiceRec

/-- An object's ordered list of named fields. -/
abbrev ObjFields := List (String × JSVal)

/-- Modelled from the spec: the object graph the deep comparator walks over —
a finite association of object ids to their fields.  Cycles arise when a
field refers back to an ancestor's id. -/
abbrev Heap := List (Nat × ObjFields)

/-- Look up an object id in a heap. -/
def lookupObj (h : Heap) (i : Nat) : Option ObjFields :=
  (h.find? (fun p => p.1 == i)).map (fun p => p.2)

/-- The object ids present in a heap. -/
def heapIds (h : Heap) : List Nat := h.map (fun p => p.1)

/-- All pairs of one id from each heap: the universe the visited set of the
deep comparator can draw from. -/
def allPairs (h1 h2 : Heap) : List (Nat × Nat) :=
  (heapIds h1).flatMap (fun i => (heapIds h2).map (fun j => (i, j)))

/-- The largest field count of any object in a heap. -/
def maxFields (h : Heap) : Nat :=
  h.foldr (fun p m => max p.2.length m) 0

/-- Position-wise pairing of two field lists: succeeds only when the key
sequences agree, yielding the paired field values. -/
def zipFields : ObjFields → ObjFields → Option (List (JSVal × JSVal))
  | [], [] => some []
  | (k1, v1) :: r1, (k2, v2) :: r2 =>
    if k1 = k2 then (zipFields r1 r2).map (fun ps => (v1, v2) :: ps)
    else none
  | _, _ => none

/-- Modelled from the spec: the deep-equality walk — "structural recursive
comparison where container membership and nested values must match and leaf
values compare with" the given leaf comparator; "cycles in compared
structures must be detected and treated as equal if both sides cycle back to
an already-visited corresponding pair".  The walk carries the visited set of
object-id pairs and a worklist of value pairs still to compare; `fuel` bounds
the number of steps, `none` meaning the recursion-depth budget ran out. -/
def deepEqLoop (leaf : JSVal → JSVal → Bool) (h1 h2 : Heap) :
    Nat → List (Nat × Nat) → List (JSVal × JSVal) → Option Bool
  | _, _, [] => some true
  | 0, _, _ :: _ => none
  | fuel + 1, vis, (a, b) :: rest =>
    match a, b with
    | .obj i, .obj j =>
      if (i, j) ∈ vis then deepEqLoop leaf h1 h2 fuel vis rest
      else
        match lookupObj h1 i, lookupObj h2 j with
        | some f1, some f2 =>
          match zipFields f1 f2 with
          | some ps => deepEqLoop leaf h1 h2 fuel ((i, j) :: vis) (ps ++ rest)
          | none => some false
        | none, none => deepEqLoop leaf h1 h2 fuel vis rest
        | _, _ => some false
    | a', b' =>
      if leaf a' b' then deepEqLoop leaf h1 h2 fuel vis rest
      else some false

/-- Whether both compared values are object references (the case the deep
walk treats via the visited set rather than the leaf comparator). -/
def isObjPair : JSVal → JSVal → Bool
  | .obj _, .obj _ => true
  | _, _ => false

/-- Number of universe pairs not yet visited. -/
def unvisited (h1 h2 : Heap) (vis : List (Nat × Nat)) : Nat :=
  ((allPairs h1 h2).filter (fun p => decide (p ∉ vis))).length

/-- A fuel budget sufficient for the deep walk to finish on one value pair
(proved below). -/
def fuelFor (h1 h2 : Heap) : Nat :=
  (allPairs h1 h2).length * (maxFields h1 + 1) + 2

/-- Modelled from the spec: the boolean outcome of one deep comparison,
starting from an empty visited set with a sufficient fuel budget. -/
def deepCompare (leaf : JSVal → JSVal → Bool) (h1 h2 : Heap) (a e : JSVal) :
    Bool :=
  (deepEqLoop leaf h1 h2 (fuelFor h1 h2) [] [(a, e)]).getD false

/-- Deep equality with strict comparison at the leaves. -/
def deepEqB (h1 h2 : Heap) (a e : JSVal) : Bool := deepCompare strictEq h1 h2 a e

/-- Deep equality with loose (coercing) comparison at the leaves. -/
def deepLooseEqB (h1 h2 : Heap) (a e : JSVal) : Bool :=
  deepCompare looseEq h1 h2 a e

/-- Modelled from the spec: `equal(actual, expected, msg)` — records
`ok = (actual === expected)`. -/
def equal (s : UnitState) (a e : JSVal) (msg : Option String) : UnitState :=
  doAssert s (strictEq a e) msg "equal"

/-- Alias of `equal`. -/
def equals (s : UnitState) (a e : JSVal) (msg : Option String) : UnitState :=
  equal s a e msg

/-- Alias of `equal`. -/
def isEqual (s : UnitState) (a e : JSVal) (msg : Option String) : UnitState :=
  equal s a e msg

/-- Alias of `equal`. -/
def is (s : UnitState) (a e : JSVal) (msg : Option String) : UnitState :=
  equal s a e msg

/-- Alias of `equal`. -/
def strictEqual (s : UnitState) (a e : JSVal) (msg : Option String) :
    UnitState :=
  equal s a e msg

/-- Alias of `equal`. -/
def strictEquals (s : UnitState) (a e : JSVal) (msg : Option String) :
    UnitState :=
  equal s a e msg

/-- Modelled from the spec: `notEqual` — "negated variants invert `ok` of the
corresponding positive comparison, not the description". -/
def notEqual (s : UnitState) (a e : JSVal) (msg : Option String) : UnitState :=
  doAssert s (!(strictEq a e)) msg "notEqual"

/-- Alias of `notEqual`. -/
def notEquals (s : UnitState) (a e : JSVal) (msg : Option String) :
    UnitState :=
  notEqual s a e msg

/-- Alias of `notEqual`. -/
def notStrictEqual (s : UnitState) (a e : JSVal) (msg : Option String) :
    UnitState :=
  notEqual s a e msg

/-- Alias of `notEqual`. -/
def notStrictEquals (s : UnitState) (a e : JSVal) (msg : Option String) :
    UnitState :=
  notEqual s a e msg

/-- Alias of `notEqual`. -/
def isNotEqual (s : UnitState) (a e : JSVal) (msg : Option String) :
    UnitState :=
  notEqual s a e msg

/-- Alias of `notEqual`. -/
def isNot (s : UnitState) (a e : JSVal) (msg : Option String) : UnitState :=
  notEqual s a e msg

/-- Alias of `notEqual`. -/
def not (s : UnitState) (a e : JSVal) (msg : Option String) : UnitState :=
  notEqual s a e msg

/-- Alias of `notEqual`. -/
def doesNotEqual (s : UnitState) (a e : JSVal) (msg : Option String) :
    UnitState :=
  notEqual s a e msg

/-- Alias of `notEqual`. -/
def isInequal (s : UnitState) (a e : JSVal) (msg : Option String) :
    UnitState :=
  notEqual s a e msg

/-- Modelled from the spec: `deepEqual` — deep structural comparison with
strict leaves. -/
def deepEqual (h1 h2 : Heap) (s : UnitState) (a e : JSVal)
    (msg : Option String) : UnitState :=
  doAssert s (deepEqB h1 h2 a e) msg "deepEqual"

/-- Alias of `deepEqual`. -/
def deepEquals (h1 h2 : Heap) (s : UnitState) (a e : JSVal)
    (msg : Option String) : UnitState :=
  deepEqual h1 h2 s a e msg

/-- Alias of `deepEqual`. -/
def isEquivalent (h1 h2 : Heap) (s : UnitState) (a e : JSVal)
    (msg : Option String) : UnitState :=
  deepEqual h1 h2 s a e msg

/-- Alias of `deepEqual`. -/
def same (h1 h2 : Heap) (s : UnitState) (a e : JSVal)
    (msg : Option String) : UnitState :=
  deepEqual h1 h2 s a e msg

/-- Modelled from the spec: `notDeepEqual` — inverts the `ok` of `deepEqual`,
not the description. -/
def notDeepEqual (h1 h2 : Heap) (s : UnitState) (a e : JSVal)
    (msg : Option String) : UnitState :=
  doAssert s (!(deepEqB h1 h2 a e)) msg "notDeepEqual"

/-- Alias of `notDeepEqual`. -/
def notEquivalent (h1 h2 : Heap) (s : UnitState) (a e : JSVal)
    (msg : Option String) : UnitState :=
  notDeepEqual h1 h2 s a e msg

/-- Alias of `notDeepEqual`. -/
def notDeeply (h1 h2 : Heap) (s : UnitState) (a e : JSVal)
    (msg : Option String) : UnitState :=
  notDeepEqual h1 h2 s a e msg

/-- Alias of `notDeepEqual`. -/
def notSame (h1 h2 : Heap) (s : UnitState) (a e : JSVal)
    (msg : Option String) : UnitState :=
  notDeepEqual h1 h2 s a e msg

/-- Alias of `notDeepEqual`. -/
def isNotDeepEqual (h1 h2 : Heap) (s : UnitState) (a e : JSVal)
    (msg : Option String) : UnitState :=
  notDeepEqual h1 h2 s a e msg

/-- Alias of `notDeepEqual`. -/
def isNotDeeply (h1 h2 : Heap) (s : UnitState) (a e : JSVal)
    (msg : Option String) : UnitState :=
  notDeepEqual h1 h2 s a e msg

/-- Alias of `notDeepEqual`. -/
def isNotEquivalent (h1 h2 : Heap) (s : UnitState) (a e : JSVal)
    (msg : Option String) : UnitState :=
  notDeepEqual h1 h2 s a e msg

/-- Alias of `notDeepEqual`. -/
def isInequivalent (h1 h2 : Heap) (s : UnitState) (a e : JSVal)
    (msg : Option String) : UnitState :=
  notDeepEqual h1 h2 s a e msg

/-- Modelled from the spec: `deepLooseEqual` — deep comparison with coercing
leaves. -/
def deepLooseEqual (h1 h2 : Heap) (s : UnitState) (a e : JSVal)
    (msg : Option String) : UnitState :=
  doAssert s (deepLooseEqB h1 h2 a e) msg "deepLooseEqual"

/-- Modelled from the spec: `notDeepLooseEqual` — inverts the `ok` of
`deepLooseEqual`, not the description. -/
def notDeepLooseEqual (h1 h2 : Heap) (s : UnitState) (a e : JSVal)
    (msg : Option String) : UnitState :=
  doAssert s (!(deepLooseEqB h1 h2 a e)) msg "notDeepLooseEqual"

/-- Alias of `notDeepLooseEqual`. -/
def notLooseEqual (h1 h2 : Heap) (s : UnitState) (a e : JSVal)
    (msg : Option String) : UnitState :=
  notDeepLooseEqual h1 h2 s a e msg

/-- Alias of `notDeepLooseEqual`. -/
def notLooseEquals (h1 h2 : Heap) (s : UnitState) (a e : JSVal)
    (msg : Option String) : UnitState :=
  notDeepLooseEqual h1 h2 s a e msg

/-- Modelled from the spec: `fail(msg)` — "records one outcome per assertion
call": exactly one failing assertion, no value comparison involved. -/
def fail (s : UnitState) (msg : Option String) : UnitState :=
  doRecord s ⟨false, false, msg, "fail"⟩

/-- Modelled from the spec: `pass(msg)` — exactly one passing assertion, no
value comparison involved. -/
def pass (s : UnitState) (msg : Option String) : UnitState :=
  doRecord s ⟨true, false, msg, "pass"⟩

/-- Modelled from the spec: `skip(msg)` — exactly one skipped assertion, no
value comparison involved. -/
def skip (s : UnitState) (msg : Option String) : UnitState :=
  doRecord s ⟨true, true, msg, "skip"⟩

/-- Modelled from the spec: the static shape of one test unit — its name,
the assertion outcomes its body records synchronously, and the subtests it
spawns, in spawn order.  (Per the spec, spawned children only start after
the parent's body has finished executing synchronously, so the body's own
assertions and its spawn list fully determine the unit's trace.) -/
inductive TestSpec where
  | mk : String → List Bool → List TestSpec → TestSpec

/-- Name of a test unit. -/
def TestSpec.name : TestSpec → String
  | .mk n _ _ => n

/-- Assertion outcomes of a test unit's own body. -/
def TestSpec.asserts : TestSpec → List Bool
  | .mk _ as _ => as

/-- Children a test unit spawns, in spawn order. -/
def TestSpec.children : TestSpec → List TestSpec
  | .mk _ _ cs => cs

/-- Observable events of a run: a unit's body being invoked, an assertion
being recorded on a unit, and a unit reaching `Done`. -/
inductive Event where
  | invoke : String → Event
  | assert : String → Bool → Event
  | finished : String → Event
deriving DecidableEq, Repr

/-- Structural size of a forest of test units, used as the drain loop's
termination measure. -/
def tsSizeL : List TestSpec → Nat
  | [] => 0
  | TestSpec.mk _ _ cs :: rest => 2 + tsSizeL cs + tsSizeL rest

/-- Modelled from the spec: the denotational trace of running a list of test
units serially: each unit's body is invoked, its assertions recorded in call
order, its children run in spawn order after the body, and the unit reaches
`Done` only after every descendant has. -/
def runList : List TestSpec → List Event
  | [] => []
  | TestSpec.mk n as cs :: rest =>
    (Event.invoke n ::
      (as.map (Event.assert n) ++ runList cs ++ [Event.finished n])) ++
      runList rest

/-- Trace of one unit and all of its descendants. -/
def runUnit (t : TestSpec) : List Event := runList [t]

/-- Modelled from the spec: a work item of the drain loop — either start a
unit (invoke its body) or mark a unit `Done` once everything queued before
this marker (the unit's own children) has been processed. -/
inductive Job where
  | start : TestSpec → Job
  | finish : String → Job

/-- Measure of outstanding work in a job queue. -/
def jobsSize : List Job → Nat
  | [] => 0
  | Job.start (TestSpec.mk _ _ cs) :: rest => 2 + tsSizeL cs + jobsSize rest
  | Job.finish _ :: rest => 1 + jobsSize rest

/-- Modelled from the spec: the drain loop — "processes the queue strictly in
enqueue (FIFO) order"; invoking a unit's body emits its assertions and
enqueues its spawned children ahead of the unit's own completion marker, so
a unit reaches `Done` only after all of its children have. -/
def exec : List Job → List Event
  | [] => []
  | Job.finish n :: rest => Event.finished n :: exec rest
  | Job.start (TestSpec.mk n as cs) :: rest =>
    Event.invoke n :: (as.map (Event.assert n) ++
      exec (cs.map Job.start ++ Job.finish n :: rest))
termination_by jobs => jobsSize jobs
decreasing_by
  all_goals
  have happ : ∀ (l m : List Job), jobsSize (l ++ m) = jobsSize l + jobsSize m := by
    intro l
    induction l with
    | nil => intro m; simp [jobsSize]
    | cons j rest ih =>
      intro m
      cases j with
      | start t => cases t with
        | mk a b c =>
          simp only [List.cons_append, jobsSize, List.append_eq, ih]
          omega
      | finish a =>
        simp only [List.cons_append, jobsSize, List.append_eq, ih]
        omega
  have hmap : ∀ (cs' : List TestSpec),
      jobsSize (cs'.map Job.start) = tsSizeL cs' := by
    intro cs'
    induction cs' with
    | nil => simp [jobsSize, tsSizeL]
    | cons c rest ih =>
      cases c with
      | mk a b cc =>
        simp only [List.map_cons, jobsSize, tsSizeL, ih]
  simp only [happ, jobsSize, hmap]
  omega

/-- Modelled from the spec: a top-level registration — the exclusive flag
(`true` when registered via `registerOnly`) and the registered unit. -/
structure Reg where
  exclusive : Bool
  spec : TestSpec

/-- Modelled from the spec: only-mode — set "once any unit is registered" via
the exclusive path. -/
def onlyMode (regs : List Reg) : Bool := regs.any (fun r => r.exclusive)

/-- Modelled from the spec: the units the Scheduler will actually invoke — in
only-mode it "silently skips (never invokes) all units not registered via
`registerOnly`". -/
def selected (regs : List Reg) : List TestSpec :=
  if onlyMode regs then (regs.filter (fun r => r.exclusive)).map (fun r => r.spec)
  else regs.map (fun r => r.spec)

/-- Modelled from the spec: a full harness run — drain the selected units
serially through the scheduler machine. -/
def harnessRun (regs : List Reg) : List Event :=
  exec ((selected regs).map Job.start)

/-- Whether a name occurs anywhere in a forest of test units. -/
def mentionsL : List TestSpec → String → Bool
  | [], _ => false
  | TestSpec.mk n _ cs :: rest, nm =>
    n == nm || mentionsL cs nm || mentionsL rest nm

/-- Whether a name occurs anywhere in one test unit's tree. -/
def mentionsName (t : TestSpec) (nm : String) : Bool := mentionsL [t] nm

/-- The TypeScript types appearing in the declared signatures under scrutiny
(`src/index.d.ts`). -/
inductive TsTy where
  | stringT : TsTy
  | optionsT : TsTy
  | testCaseT : TsTy
  | testT : TsTy
  | voidT : TsTy
  | anyT : TsTy
deriving DecidableEq, Repr

/-- One declared overload: parameter types and return type. -/
structure Overload where
  params : List TsTy
  ret : TsTy
deriving DecidableEq, Repr

/-- The overloads of the top-level `tape` function, transcribed from
`src/index.d.ts` lines 7-10. -/
def tapeOverloads : List Overload :=
  [⟨[.stringT, .optionsT, .testCaseT], .testT⟩,
   ⟨[.stringT, .testCaseT], .testT⟩,
   ⟨[.optionsT, .testCaseT], .testT⟩,
   ⟨[.testCaseT], .testT⟩]

/-- The signature of `Test.test`, transcribed from `src/index.d.ts` line 65:
`test (name: string, cb: tape.TestCase): void`. -/
def testMethodSig : Overload := ⟨[.stringT, .testCaseT], .voidT⟩

/-- The parameter list of the `TestCase` callback type, transcribed from
`src/index.d.ts` lines 13-15: `(test: Test): any`. -/
def testCaseParams : List TsTy := [.testT]

/-- The return type of the `TestCase` callback type. -/
def testCaseRet : TsTy := .anyT

/-- Closed form of a run of assertion calls against a unit whose plan `n` is
declared and whose count stands at `k`: the first `n - k` calls are recorded
as issued, every later call is recorded as the synthetic after-end failure,
and the unit is finished exactly once the count reaches the plan. -/
theorem runAsserts_char (n : Nat) (bs : List Bool) : ∀ (k : Nat) (rs : List Rec),
    runAsserts ⟨k, decide (n ≤ k), some n, rs⟩ bs =
      ⟨k + bs.length, decide (n ≤ k + bs.length), some n,
        rs ++ ((bs.take (n - k)).map okRec ++
          (bs.drop (n - k)).map (fun _ => afterEndRec))⟩ := by
  induction bs with
  | nil =>
    intro k rs
    simp [runAsserts]
  | cons b bs ih =>
    intro k rs
    have hstep : runAsserts ⟨k, decide (n ≤ k), some n, rs⟩ (b :: bs) =
        runAsserts (stepA ⟨k, decide (n ≤ k), some n, rs⟩ b) bs := rfl
    by_cases h : n ≤ k
    · have h' : n ≤ k + 1 := by omega
      have h1 : n - k = 0 := by omega
      have h2 : n - (k + 1) = 0 := by omega
      have hs : stepA ⟨k, decide (n ≤ k), some n, rs⟩ b =
          ⟨k + 1, decide (n ≤ k + 1), some n, rs ++ [afterEndRec]⟩ := by
        simp [stepA, doAssert, doRecord, rawRecord, h, h']
      rw [hstep, hs, ih]
      simp [h1, h2, UnitState.mk.injEq, List.append_assoc, okRec, afterEndRec] <;>
        omega
    · have h3 : n - k = (n - (k + 1)) + 1 := by omega
      have hs : stepA ⟨k, decide (n ≤ k), some n, rs⟩ b =
          ⟨k + 1, decide (n ≤ k + 1), some n, rs ++ [okRec b]⟩ := by
        simp [stepA, doAssert, doRecord, rawRecord, h, okRec]
      rw [hstep, hs, ih]
      simp [h3, UnitState.mk.injEq, List.append_assoc, okRec, afterEndRec] <;>
        omega

/-- A fresh unit after `plan n`: nothing recorded, plan stored, finished only
if the plan is already met at count zero. -/
theorem planInit_eq (n : Nat) :
    planInit n = ⟨0, decide (n ≤ 0), some n, []⟩ := by
  simp [planInit, doPlan, initState]

/-- Claim C1: for every test unit with a declared plan `n` and every sequence
of assertion calls on it, the unit reaches `Done` exactly when the `n`-th
assertion is recorded, and every assertion recorded after that point is
itself recorded as a failure, never silently dropped. -/
theorem claim_c1 (n : Nat) (bs : List Bool) :
    ((runAsserts (planInit n) bs).finished = decide (n ≤ bs.length))
    ∧ (runAsserts (planInit n) bs).records.length = bs.length
    ∧ (∀ i, i < bs.length → n ≤ i →
        (runAsserts (planInit n) bs).records[i]? = some afterEndRec)
    ∧ (∀ i, i < bs.length → i < n →
        (runAsserts (planInit n) bs).records[i]? = (bs[i]?).map okRec)
    ∧ (∀ k, k < n → (runAsserts (planInit n) (bs.take k)).finished = false) := by
  have hchar : ∀ (cs : List Bool), runAsserts (planInit n) cs =
      ⟨cs.length, decide (n ≤ cs.length), some n,
        (cs.take n).map okRec ++ (cs.drop n).map (fun _ => afterEndRec)⟩ := by
    intro cs
    rw [planInit_eq, runAsserts_char n cs 0 []]
    simp
  refine ⟨?_, ?_, ?_, ?_, ?_⟩
  · rw [hchar]
  · rw [hchar]
    simp
    omega
  · intro i hi hni
    rw [hchar]
    simp only []
    rw [List.getElem?_append_right]
    · simp only [List.getElem?_map]
      have : i - ((bs.take n).map okRec).length < (bs.drop n).length := by
        simp
        omega
      rw [List.getElem?_eq_getElem (by simpa using this)]
      simp
    · simp
      omega
  · intro i hi hin
    rw [hchar]
    simp only []
    rw [List.getElem?_append_left]
    · simp [List.getElem?_take, hin]
    · simp
      omega
  · intro k hk
    rw [hchar]
    simp
    omega

/-- Every call against a unit only ever appends to the record list and never
lowers the assertion count, and every protocol violation — asserting after
completion (which is how an assertion beyond a declared plan presents),
a second `end()`, or a second (or late) `plan` — appends exactly one
synthetic failing record and is never dropped.  This is claim C5 stated
over `stepCall`. -/
theorem claim_c5 (s : UnitState) (c : Call) :
    ((stepCall s c).records.take s.records.length = s.records)
    ∧ s.records.length ≤ (stepCall s c).records.length
    ∧ s.count ≤ (stepCall s c).count
    ∧ (isViolation s c = true →
        (stepCall s c).records = s.records ++ [violationRec c]
        ∧ (violationRec c).ok = false
        ∧ (stepCall s c).count = s.count + 1) := by
  have htake : ∀ (r : Rec), (s.records ++ [r]).take s.records.length = s.records := by
    intro r
    simpa using List.take_left s.records [r]
  cases c with
  | assertC b =>
    by_cases hf : s.finished
    · simp [stepCall, stepA, doAssert, doRecord, isViolation, violationRec,
        rawRecord, hf, htake, afterEndRec]
    · simp [stepCall, stepA, doAssert, doRecord, isViolation, violationRec,
        rawRecord, hf, htake]
  | endC =>
    by_cases hf : s.finished
    · simp [stepCall, doEnd, isViolation, violationRec, rawRecord, hf, htake,
        endTwiceRec]
    · simp [stepCall, doEnd, isViolation, violationRec, hf]
  | planC n =>
    by_cases hv : (s.planned.isSome || s.finished) = true
    · simp [stepCall, doPlan, isViolation, violationRec, rawRecord, hv, htake,
        planTwiceRec]
    · have hv' : (s.planned.isSome || s.finished) = false := by
        simpa using hv
      simp [stepCall, doPlan, isViolation, violationRec, hv']

/-- Concrete instance of claim C5: a second `end()` on an already-finished
unit appends exactly one synthetic failing record. -/
theorem claim_c5_witness :
    (stepCall ⟨1, true, none, [okRec true]⟩ Call.endC).records =
        [okRec true] ++ [violationRec Call.endC]
    ∧ (violationRec Call.endC).ok = false :=
  ⟨((claim_c5 ⟨1, true, none, [okRec true]⟩ Call.endC).2.2.2 (by decide)).1,
   ((claim_c5 ⟨1, true, none, [okRec true]⟩ Call.endC).2.2.2 (by decide)).2.1⟩

/-- Claim C10: `fail`, `pass` and `skip` take only an optional message and
record exactly one failing, passing, or skipped assertion respectively, with
no value comparison involved. -/
theorem claim_c10 (s : UnitState) (msg : Option String)
    (hd : s.finished = false) :
    ((fail s msg).records = s.records ++ [⟨false, false, msg, "fail"⟩]
      ∧ (fail s msg).count = s.count + 1)
    ∧ ((pass s msg).records = s.records ++ [⟨true, false, msg, "pass"⟩]
      ∧ (pass s msg).count = s.count + 1)
    ∧ ((skip s msg).records = s.records ++ [⟨true, true, msg, "skip"⟩]
      ∧ (skip s msg).count = s.count + 1) := by
  refine ⟨⟨?_, ?_⟩, ⟨?_, ?_⟩, ⟨?_, ?_⟩⟩ <;>
    simp [fail, pass, skip, doRecord, rawRecord, hd]

/-- Concrete instance of claim C10: `fail` on a fresh unit records exactly
one failing assertion. -/
theorem claim_c10_witness :
    (fail initState (some "boom")).records =
        [] ++ [⟨false, false, some "boom", "fail"⟩]
    ∧ (fail initState (some "boom")).count = 0 + 1 :=
  (claim_c10 initState (some "boom") rfl).1

/-- Strict comparison in the value model holds exactly on identical values:
different kinds never compare equal (no coercion), and objects compare by
reference identity. -/
theorem strictEq_iff (a b : JSVal) : strictEq a b = true ↔ a = b := by
  cases a <;> cases b <;> simp [strictEq]

/-- Claim C6: `equal` records `ok` exactly when `actual === expected` under
strict comparison with no type coercion, and all of its aliases (`equals`,
`isEqual`, `is`, `strictEqual`, `strictEquals`) record the same outcome. -/
theorem claim_c6 (s : UnitState) (a e : JSVal) (msg : Option String)
    (hd : s.finished = false) :
    ((equal s a e msg).records =
        s.records ++ [⟨strictEq a e, false, msg, "equal"⟩])
    ∧ (strictEq a e = true ↔ a = e)
    ∧ equals s a e msg = equal s a e msg
    ∧ isEqual s a e msg = equal s a e msg
    ∧ is s a e msg = equal s a e msg
    ∧ strictEqual s a e msg = equal s a e msg
    ∧ strictEquals s a e msg = equal s a e msg := by
  refine ⟨?_, strictEq_iff a e, rfl, rfl, rfl, rfl, rfl⟩
  simp [equal, doAssert, doRecord, rawRecord, hd]

/-- Concrete instance of claim C6: comparing the number 1 with the string
"1" records a failing `ok` — no type coercion. -/
theorem claim_c6_witness :
    (equal initState (JSVal.number 1) (JSVal.str "1") none).records =
        [] ++ [⟨strictEq (JSVal.number 1) (JSVal.str "1"), false, none, "equal"⟩] :=
  (claim_c6 initState (JSVal.number 1) (JSVal.str "1") none rfl).1

/-- Peeling one unit off the front of a serial run. -/
theorem runList_cons (t : TestSpec) (rest : List TestSpec) :
    runList (t :: rest) = runList [t] ++ runList rest := by
  cases t with
  | mk n as cs => simp [runList]

/-- Serial runs of concatenated registration lists concatenate. -/
theorem runList_append (xs ys : List TestSpec) :
    runList (xs ++ ys) = runList xs ++ runList ys := by
  induction xs with
  | nil => simp [runList]
  | cons t rest ih =>
    rw [List.cons_append, runList_cons, ih, runList_cons t rest,
      List.append_assoc]

/-- A unit's trace starts with its body being invoked and ends with the unit
reaching `Done`. -/
theorem runList_shape (t : TestSpec) :
    ∃ mid, runList [t] =
      Event.invoke t.name :: (mid ++ [Event.finished t.name]) := by
  cases t with
  | mk n as cs =>
    refine ⟨as.map (Event.assert n) ++ runList cs, ?_⟩
    simp [runList, TestSpec.name]

/-- Each spawned child's `Done` event occurs in the children's combined
trace. -/
theorem finished_mem_runList (cs : List TestSpec) (c : TestSpec) (hc : c ∈ cs) :
    Event.finished c.name ∈ runList cs := by
  obtain ⟨s, t, rfl⟩ := List.append_of_mem hc
  rw [runList_append, runList_cons]
  obtain ⟨mid, hm⟩ := runList_shape c
  simp [hm]

/-- The drain-loop machine refines the denotational serial trace: starting a
block of units in front of any residual queue yields those units' full
traces, in order, followed by the residual queue's trace. -/
theorem exec_mapStart_append (N : Nat) : ∀ (ts : List TestSpec) (jobs : List Job),
    tsSizeL ts ≤ N → exec (ts.map Job.start ++ jobs) = runList ts ++ exec jobs := by
  induction N with
  | zero =>
    intro ts jobs h
    cases ts with
    | nil => simp [runList]
    | cons t rest =>
      cases t with
      | mk n as cs => simp [tsSizeL] at h
  | succ N ih =>
    intro ts jobs h
    cases ts with
    | nil => simp [runList]
    | cons t rest =>
      cases t with
      | mk n as cs =>
        have hcs : tsSizeL cs ≤ N := by
          simp [tsSizeL] at h
          omega
        have hrest : tsSizeL rest ≤ N := by
          simp [tsSizeL] at h
          omega
        rw [List.map_cons, List.cons_append]
        rw [show exec (Job.start (TestSpec.mk n as cs) ::
              (rest.map Job.start ++ jobs)) =
            Event.invoke n :: (as.map (Event.assert n) ++
              exec (cs.map Job.start ++ Job.finish n ::
                (rest.map Job.start ++ jobs))) from by simp [exec]]
        rw [ih cs (Job.finish n :: (rest.map Job.start ++ jobs)) hcs]
        rw [show exec (Job.finish n :: (rest.map Job.start ++ jobs)) =
            Event.finished n :: exec (rest.map Job.start ++ jobs) from by
          simp [exec]]
        rw [ih rest jobs hrest, runList_cons]
        simp [runList]

/-- The drain loop on a queue of started units produces exactly the serial
denotational trace. -/
theorem exec_mapStart (ts : List TestSpec) :
    exec (ts.map Job.start) = runList ts := by
  have h := exec_mapStart_append (tsSizeL ts) ts [] le_rfl
  simpa [exec] using h

/-- Two positions of a registration list occupy disjoint, ordered, contiguous
blocks of the serial trace. -/
theorem runList_two_blocks (ts : List TestSpec) (i j : Nat) (hij : i < j)
    (hj : j < ts.length) :
    ∃ A B C, runList ts =
      A ++ runList [ts.get ⟨i, Nat.lt_trans hij hj⟩] ++ B ++
        runList [ts.get ⟨j, hj⟩] ++ C := by
  have hi : i < ts.length := Nat.lt_trans hij hj
  refine ⟨runList (ts.take i), runList ((ts.drop (i + 1)).take (j - i - 1)),
    runList (ts.drop (j + 1)), ?_⟩
  have h2 : (ts.drop (i + 1)).drop (j - i - 1) = ts.drop j := by
    rw [List.drop_drop]
    congr 1
    omega
  have hsplit : ts = ts.take i ++ ts[i] ::
      ((ts.drop (i + 1)).take (j - i - 1) ++ (ts[j] :: ts.drop (j + 1))) := by
    calc ts = ts.take i ++ ts.drop i := (List.take_append_drop i ts).symm
    _ = ts.take i ++ ts[i] :: ts.drop (i + 1) := by
        rw [List.drop_eq_getElem_cons hi]
    _ = ts.take i ++ ts[i] :: ((ts.drop (i + 1)).take (j - i - 1) ++
          (ts.drop (i + 1)).drop (j - i - 1)) := by
        rw [List.take_append_drop]
    _ = ts.take i ++ ts[i] :: ((ts.drop (i + 1)).take (j - i - 1) ++
          (ts[j] :: ts.drop (j + 1))) := by
        rw [h2, List.drop_eq_getElem_cons hj]
  have e1 : runList ts = runList (ts.take i) ++
      runList (ts[i] :: ((ts.drop (i + 1)).take (j - i - 1) ++
        (ts[j] :: ts.drop (j + 1)))) := by
    conv_lhs => rw [hsplit]
    rw [runList_append]
  have e2 := runList_cons ts[i]
    ((ts.drop (i + 1)).take (j - i - 1) ++ (ts[j] :: ts.drop (j + 1)))
  have e3 := runList_append ((ts.drop (i + 1)).take (j - i - 1))
    (ts[j] :: ts.drop (j + 1))
  have e4 := runList_cons ts[j] (ts.drop (j + 1))
  rw [e1, e2, e3, e4]
  simp [List.append_assoc]

/-- Claim C2: top-level tests execute serially in strict registration
order — the machine trace equals the concatenation of the registered units'
complete traces in order, any two registered tests occupy disjoint ordered
blocks (so their assertions never interleave and a later test, whose block
starts with its `invoke`, runs only after the earlier test's block, which
ends with its `Done` and contains all its descendants, is complete). -/
theorem claim_c2 (ts : List TestSpec) (i j : Nat) (hij : i < j)
    (hj : j < ts.length) :
    (exec (ts.map Job.start) = runList ts)
    ∧ (∃ A B C, exec (ts.map Job.start) =
        A ++ runList [ts.get ⟨i, Nat.lt_trans hij hj⟩] ++ B ++
          runList [ts.get ⟨j, hj⟩] ++ C)
    ∧ (∃ mid, runList [ts.get ⟨i, Nat.lt_trans hij hj⟩] =
        Event.invoke (ts.get ⟨i, Nat.lt_trans hij hj⟩).name ::
          (mid ++ [Event.finished (ts.get ⟨i, Nat.lt_trans hij hj⟩).name]))
    ∧ (∃ mid, runList [ts.get ⟨j, hj⟩] =
        Event.invoke (ts.get ⟨j, hj⟩).name ::
          (mid ++ [Event.finished (ts.get ⟨j, hj⟩).name])) := by
  refine ⟨exec_mapStart ts, ?_, runList_shape _, runList_shape _⟩
  rw [exec_mapStart ts]
  exact runList_two_blocks ts i j hij hj

/-- Concrete instance of claim C2 with two registered tests: the machine
trace is the two blocks in registration order. -/
theorem claim_c2_witness :
    exec ([TestSpec.mk "a" [] [], TestSpec.mk "b" [] []].map Job.start) =
      runList [TestSpec.mk "a" [] [], TestSpec.mk "b" [] []] :=
  (claim_c2 [TestSpec.mk "a" [] [], TestSpec.mk "b" [] []] 0 1 (by decide)
    (by decide)).1

/-- Claim C3: a parent's spawned children run in spawn order, strictly after
the parent's own synchronously recorded body assertions, and the parent's
`Done` event comes last — after every child (each child's own trace also
ending in its `Done`), even though the parent's body already returned. -/
theorem claim_c3 (n : String) (as : List Bool) (cs : List TestSpec)
    (i j : Nat) (hij : i < j) (hj : j < cs.length) :
    (exec [Job.start (TestSpec.mk n as cs)] =
      Event.invoke n :: (as.map (Event.assert n) ++ runList cs ++
        [Event.finished n]))
    ∧ (∀ c ∈ cs, Event.finished c.name ∈
        Event.invoke n :: (as.map (Event.assert n) ++ runList cs))
    ∧ (∃ A B C, runList cs =
        A ++ runList [cs.get ⟨i, Nat.lt_trans hij hj⟩] ++ B ++
          runList [cs.get ⟨j, hj⟩] ++ C)
    ∧ (∀ c ∈ cs, ∃ mid, runList [c] =
        Event.invoke c.name :: (mid ++ [Event.finished c.name])) := by
  refine ⟨?_, ?_, runList_two_blocks cs i j hij hj, fun c _ => runList_shape c⟩
  · have h := exec_mapStart [TestSpec.mk n as cs]
    rw [List.map_singleton] at h
    rw [h]
    simp [runList]
  · intro c hc
    have := finished_mem_runList cs c hc
    simp [this]

/-- Concrete instance of claim C3: a parent with two children produces its
invoke, its body assertion, both children's blocks, then its own `Done`. -/
theorem claim_c3_witness :
    exec [Job.start (TestSpec.mk "p" [true]
        [TestSpec.mk "c1" [] [], TestSpec.mk "c2" [] []])] =
      Event.invoke "p" :: ([true].map (Event.assert "p") ++
        runList [TestSpec.mk "c1" [] [], TestSpec.mk "c2" [] []] ++
        [Event.finished "p"]) :=
  (claim_c3 "p" [true] [TestSpec.mk "c1" [] [], TestSpec.mk "c2" [] []] 0 1
    (by decide) (by decide)).1

/-- A name invoked somewhere in a serial trace is mentioned by some unit of
the registration forest. -/
theorem invoke_mem_mentions (N : Nat) : ∀ (ts : List TestSpec) (nm : String),
    tsSizeL ts ≤ N → Event.invoke nm ∈ runList ts → mentionsL ts nm = true := by
  induction N with
  | zero =>
    intro ts nm h hm
    cases ts with
    | nil => simp [runList] at hm
    | cons t rest =>
      cases t with
      | mk n as cs => simp [tsSizeL] at h
  | succ N ih =>
    intro ts nm h hm
    cases ts with
    | nil => simp [runList] at hm
    | cons t rest =>
      cases t with
      | mk n as cs =>
        have hcs : tsSizeL cs ≤ N := by
          simp [tsSizeL] at h
          omega
        have hrest : tsSizeL rest ≤ N := by
          simp [tsSizeL] at h
          omega
        rw [runList_cons] at hm
        rcases List.mem_append.mp hm with hL | hR
        · have hL' : Event.invoke nm ∈ Event.invoke n ::
              (as.map (Event.assert n) ++ runList cs ++
                [Event.finished n]) := by
            simpa [runList] using hL
          rcases List.mem_cons.mp hL' with he | hin
          · have hn : nm = n := by
              injection he
            subst hn
            simp [mentionsL]
          · rcases List.mem_append.mp hin with hin2 | hfin
            · rcases List.mem_append.mp hin2 with has | hcs'
              · exfalso
                rcases List.mem_map.mp has with ⟨b, _, hb⟩
                exact Event.noConfusion hb
              · have hr := ih cs nm hcs hcs'
                simp [mentionsL, hr]
            · exfalso
              simp at hfin
        · have hr := ih rest nm hrest hR
          simp [mentionsL, hr]

/-- A mentioned name is mentioned by some member of the forest. -/
theorem mentionsL_exists (ts : List TestSpec) (nm : String)
    (h : mentionsL ts nm = true) : ∃ t ∈ ts, mentionsName t nm = true := by
  induction ts with
  | nil => simp [mentionsL] at h
  | cons t rest ih =>
    cases t with
    | mk n as cs =>
      rw [mentionsL, Bool.or_eq_true, Bool.or_eq_true] at h
      rcases h with (h1 | h2) | h3
      · exact ⟨TestSpec.mk n as cs, List.mem_cons_self _ _,
          by simp [mentionsName, mentionsL, h1]⟩
      · exact ⟨TestSpec.mk n as cs, List.mem_cons_self _ _,
          by simp [mentionsName, mentionsL, h2]⟩
      · obtain ⟨u, hu, hmu⟩ := ih h3
        exact ⟨u, List.mem_cons_of_mem _ hu, hmu⟩

/-- Claim C4: once any test is registered via the exclusive path, the harness
is in only-mode: the scheduler runs exactly the exclusively registered units
in order, and the body of a test not registered exclusively is never invoked
and contributes nothing to the output (its name, when mentioned by no
exclusive test, never appears as an invoke event). -/
theorem claim_c4 (regs : List Reg) (hex : onlyMode regs = true) :
    (selected regs =
      (regs.filter (fun r => r.exclusive)).map (fun r => r.spec))
    ∧ (harnessRun regs =
        runList ((regs.filter (fun r => r.exclusive)).map (fun r => r.spec)))
    ∧ (∀ nm, (∀ r ∈ regs, r.exclusive = true → mentionsName r.spec nm = false) →
        Event.invoke nm ∉ harnessRun regs) := by
  have hsel : selected regs =
      (regs.filter (fun r => r.exclusive)).map (fun r => r.spec) := by
    simp [selected, hex]
  refine ⟨hsel, ?_, ?_⟩
  · rw [harnessRun, hsel, exec_mapStart]
  · intro nm hnm hmem
    rw [harnessRun, hsel, exec_mapStart] at hmem
    have hml := invoke_mem_mentions
      (tsSizeL ((regs.filter (fun r => r.exclusive)).map (fun r => r.spec)))
      ((regs.filter (fun r => r.exclusive)).map (fun r => r.spec)) nm
      le_rfl hmem
    obtain ⟨t, ht, hmt⟩ := mentionsL_exists _ nm hml
    obtain ⟨r, hr, rfl⟩ := List.mem_map.mp ht
    have hrex : r.exclusive = true := by
      have := (List.mem_filter.mp hr).2
      simpa using this
    have hrregs : r ∈ regs := (List.mem_filter.mp hr).1
    have hfalse := hnm r hrregs hrex
    rw [hmt] at hfalse
    exact Bool.noConfusion hfalse

/-- Concrete instance of claim C4: with one exclusive and one normal
registration, exactly the exclusive unit is selected to run. -/
theorem claim_c4_witness :
    selected [⟨true, TestSpec.mk "only" [] []⟩,
        ⟨false, TestSpec.mk "other" [] []⟩] =
      ([(⟨true, TestSpec.mk "only" [] []⟩ : Reg),
        ⟨false, TestSpec.mk "other" [] []⟩].filter
          (fun r => r.exclusive)).map (fun r => r.spec) :=
  (claim_c4 [⟨true, TestSpec.mk "only" [] []⟩,
    ⟨false, TestSpec.mk "other" [] []⟩] (by decide)).1

/-- Claim C9: `Test.test` (the subtest-spawning method) is declared to return
`void` — the child handle is delivered only as the argument of the `TestCase`
callback — while every overload of the top-level `tape` function is declared
to return the created `Test` handle. -/
theorem claim_c9 :
    testMethodSig.ret = TsTy.voidT
    ∧ testMethodSig.params = [TsTy.stringT, TsTy.testCaseT]
    ∧ testMethodSig.params.contains TsTy.testT = false
    ∧ testCaseParams = [TsTy.testT]
    ∧ tapeOverloads.all (fun o => o.ret == TsTy.testT) = true
    ∧ (tapeOverloads.map (fun o => o.ret)).contains TsTy.voidT = false := by
  refine ⟨rfl, rfl, by decide, rfl, by decide, by decide⟩

/-- Filtering by the complement of a larger exclusion list keeps no more
elements. -/
theorem length_filter_notMem_le (l : List (Nat × Nat))
    (p : Nat × Nat) (vis : List (Nat × Nat)) :
    (l.filter (fun q => decide (q ∉ p :: vis))).length ≤
      (l.filter (fun q => decide (q ∉ vis))).length := by
  induction l with
  | nil => simp
  | cons a l ih =>
    simp only [List.filter_cons]
    by_cases h1 : a ∈ p :: vis
    · have h2 : (decide (a ∉ p :: vis)) = false := by simp [h1]
      rw [h2]
      by_cases h3 : a ∈ vis
      · have h4 : (decide (a ∉ vis)) = false := by simp [h3]
        rw [h4]
        simpa using ih
      · have h4 : (decide (a ∉ vis)) = true := by simp [h3]
        rw [h4]
        simp only [Bool.false_eq_true, if_false, if_pos, List.length_cons]
        omega
    · have h2 : (decide (a ∉ p :: vis)) = true := by
        simp at h1 ⊢
        tauto
      have h3 : (decide (a ∉ vis)) = true := by
        simp at h1 ⊢
        tauto
      rw [h2, h3]
      simp only [if_pos, List.length_cons]
      omega

/-- Excluding one more element that the list actually contains strictly
shrinks the filtered remainder. -/
theorem length_filter_notMem_lt (l : List (Nat × Nat))
    (p : Nat × Nat) (vis : List (Nat × Nat)) (hp : p ∈ l) (hnv : p ∉ vis) :
    (l.filter (fun q => decide (q ∉ p :: vis))).length <
      (l.filter (fun q => decide (q ∉ vis))).length := by
  induction l with
  | nil => simp at hp
  | cons a l ih =>
    simp only [List.filter_cons]
    by_cases hap : a = p
    · subst hap
      have h2 : (decide (a ∉ a :: vis)) = false := by simp
      have h3 : (decide (a ∉ vis)) = true := by simp [hnv]
      rw [h2, h3]
      simp only [Bool.false_eq_true, if_false, if_pos, List.length_cons]
      have := length_filter_notMem_le l a vis
      omega
    · have hp' : p ∈ l := by
        rcases List.mem_cons.mp hp with h | h
        · exact absurd h.symm hap
        · exact h
      have hstep := ih hp'
      by_cases h3 : a ∈ vis
      · have h4 : (decide (a ∉ vis)) = false := by simp [h3]
        have h5 : (decide (a ∉ p :: vis)) = false := by simp [h3]
        rw [h4, h5]
        simpa using hstep
      · have h4 : (decide (a ∉ vis)) = true := by simp [h3]
        have h5 : (decide (a ∉ p :: vis)) = true := by
          simp [h3, hap]
        rw [h4, h5]
        simp only [if_pos, List.length_cons]
        omega

/-- A successful heap lookup witnesses that the id is present. -/
theorem lookupObj_mem_heapIds (h : Heap) (i : Nat) (f : ObjFields)
    (hl : lookupObj h i = some f) : i ∈ heapIds h := by
  unfold lookupObj at hl
  obtain ⟨q, hq, hqf⟩ := Option.map_eq_some'.mp hl
  have hqi := List.find?_some hq
  have hmem : q ∈ h := List.mem_of_find?_eq_some hq
  have hqe : q.1 = i := by simpa using hqi
  subst hqe
  exact List.mem_map_of_mem (fun p => p.1) hmem

/-- A looked-up object's field count is bounded by the heap's maximum. -/
theorem lookupObj_length_le (h : Heap) (i : Nat) (f : ObjFields)
    (hl : lookupObj h i = some f) : f.length ≤ maxFields h := by
  unfold lookupObj at hl
  obtain ⟨q, hq, hqf⟩ := Option.map_eq_some'.mp hl
  have hmem : q ∈ h := List.mem_of_find?_eq_some hq
  subst hqf
  clear hq hl
  induction h with
  | nil => simp at hmem
  | cons a t ih =>
    rcases List.mem_cons.mp hmem with h' | h'
    · subst h'
      simp [maxFields]
    · have := ih h'
      simp only [maxFields, List.foldr_cons] at this ⊢
      omega

/-- A pair of present ids lies in the visited-set universe. -/
theorem mem_allPairs (h1 h2 : Heap) (i j : Nat) (hi : i ∈ heapIds h1)
    (hj : j ∈ heapIds h2) : (i, j) ∈ allPairs h1 h2 := by
  simp only [allPairs, List.mem_flatMap, List.mem_map]
  exact ⟨i, hi, j, hj, rfl⟩

/-- Visiting a fresh universe pair strictly decreases the unvisited count. -/
theorem unvisited_lt (h1 h2 : Heap) (i j : Nat) (vis : List (Nat × Nat))
    (hm : (i, j) ∈ allPairs h1 h2) (hnv : (i, j) ∉ vis) :
    unvisited h1 h2 ((i, j) :: vis) < unvisited h1 h2 vis := by
  unfold unvisited
  exact length_filter_notMem_lt (allPairs h1 h2) (i, j) vis hm hnv

/-- With nothing visited, the whole universe is unvisited. -/
theorem unvisited_nil (h1 h2 : Heap) :
    unvisited h1 h2 [] = (allPairs h1 h2).length := by
  simp [unvisited]

/-- A successful field pairing has as many pairs as the left field list. -/
theorem zipFields_length (f1 : ObjFields) : ∀ (f2 : ObjFields)
    (ps : List (JSVal × JSVal)), zipFields f1 f2 = some ps →
      ps.length = f1.length := by
  induction f1 with
  | nil =>
    intro f2 ps h
    cases f2 with
    | nil =>
      simp [zipFields] at h
      simp [← h]
    | cons b t => simp [zipFields] at h
  | cons a t ih =>
    intro f2 ps h
    cases f2 with
    | nil => simp [zipFields] at h
    | cons b u =>
      obtain ⟨k1, v1⟩ := a
      obtain ⟨k2, v2⟩ := b
      by_cases hk : k1 = k2
      · subst hk
        simp only [zipFields, if_pos] at h
        obtain ⟨qs, hqs, hps⟩ := Option.map_eq_some'.mp h
        subst hps
        simp [ih u qs hqs]
      · simp [zipFields, hk] at h

/-- Pairing a field list with itself yields the diagonal value pairs. -/
theorem zipFields_self (f : ObjFields) :
    zipFields f f = some (f.map (fun kv => (kv.2, kv.2))) := by
  induction f with
  | nil => simp [zipFields]
  | cons a t ih =>
    obtain ⟨k, v⟩ := a
    simp [zipFields, ih]

/-- Field pairing in the opposite order swaps every pair. -/
theorem zipFields_swap (f1 : ObjFields) : ∀ (f2 : ObjFields),
    zipFields f2 f1 =
      (zipFields f1 f2).map (fun ps => ps.map Prod.swap) := by
  induction f1 with
  | nil =>
    intro f2
    cases f2 with
    | nil => simp [zipFields]
    | cons b t => simp [zipFields]
  | cons a t ih =>
    intro f2
    cases f2 with
    | nil => simp [zipFields]
    | cons b u =>
      obtain ⟨k1, v1⟩ := a
      obtain ⟨k2, v2⟩ := b
      by_cases hk : k1 = k2
      · subst hk
        simp only [zipFields, if_pos]
        rw [ih u]
        cases hz : zipFields t u with
        | none => simp [hz]
        | some qs => simp [hz]
      · simp [zipFields, hk, Ne.symm hk]

/-- Strict comparison is reflexive in the value model. -/
theorem strictEq_refl (a : JSVal) : strictEq a a = true := by
  cases a <;> simp [strictEq]

/-- Strict comparison is symmetric in the value model. -/
theorem strictEq_symm (a b : JSVal) : strictEq a b = strictEq b a := by
  cases a <;> cases b <;> simp [strictEq] <;> exact ⟨Eq.symm, Eq.symm⟩

/-- Swapped membership in a swapped visited set. -/
theorem mem_map_swap (vis : List (Nat × Nat)) (i j : Nat) :
    ((j, i) ∈ vis.map Prod.swap) ↔ (i, j) ∈ vis := by
  constructor
  · intro h
    rcases List.mem_map.mp h with ⟨⟨x, y⟩, hxy, heq⟩
    have hx : y = j ∧ x = i := by
      simpa [Prod.swap] using heq
    rcases hx with ⟨rfl, rfl⟩
    exact hxy
  · intro h
    exact List.mem_map.mpr ⟨(i, j), h, rfl⟩

/-- An object pair decomposes into its two reference ids. -/
theorem isObjPair_true (a b : JSVal) (h : isObjPair a b = true) :
    ∃ i j, a = JSVal.obj i ∧ b = JSVal.obj j := by
  cases a <;> cases b <;> simp [isObjPair] at h <;> exact ⟨_, _, rfl, rfl⟩

/-- Object-pairhood is symmetric. -/
theorem isObjPair_symm (a b : JSVal) : isObjPair a b = isObjPair b a := by
  cases a <;> cases b <;> rfl

/-- The deep walk succeeds immediately on an empty worklist. -/
theorem deepEqLoop_nil (leaf : JSVal → JSVal → Bool) (h1 h2 : Heap)
    (fuel : Nat) (vis : List (Nat × Nat)) :
    deepEqLoop leaf h1 h2 fuel vis [] = some true := by
  cases fuel <;> simp [deepEqLoop]

/-- One step of the deep walk on a pair that is not two object references:
the leaf comparator decides, a success continuing with the rest of the
worklist. -/
theorem deepEqLoop_cons_nonobj (leaf : JSVal → JSVal → Bool) (h1 h2 : Heap)
    (fuel : Nat) (vis : List (Nat × Nat)) (a b : JSVal)
    (rest : List (JSVal × JSVal)) (hno : isObjPair a b = false) :
    deepEqLoop leaf h1 h2 (fuel + 1) vis ((a, b) :: rest) =
      if leaf a b then deepEqLoop leaf h1 h2 fuel vis rest
      else some false := by
  cases a <;> cases b <;> simp [isObjPair] at hno ⊢ <;> simp [deepEqLoop]

/-- One step of the deep walk on a pair of object references: an
already-visited pair is treated as equal and the walk moves on; a fresh pair
is marked visited and its paired fields are pushed onto the worklist. -/
theorem deepEqLoop_cons_objobj (leaf : JSVal → JSVal → Bool) (h1 h2 : Heap)
    (fuel : Nat) (vis : List (Nat × Nat)) (i j : Nat)
    (rest : List (JSVal × JSVal)) :
    deepEqLoop leaf h1 h2 (fuel + 1) vis ((JSVal.obj i, JSVal.obj j) :: rest) =
      if (i, j) ∈ vis then deepEqLoop leaf h1 h2 fuel vis rest
      else
        match lookupObj h1 i, lookupObj h2 j with
        | some f1, some f2 =>
          match zipFields f1 f2 with
          | some ps => deepEqLoop leaf h1 h2 fuel ((i, j) :: vis) (ps ++ rest)
          | none => some false
        | none, none => deepEqLoop leaf h1 h2 fuel vis rest
        | _, _ => some false := by
  rfl

/-- Step on a fresh object pair whose two lookups succeed and whose fields
pair up: mark visited, push the paired fields. -/
theorem deepEqLoop_step_push (leaf : JSVal → JSVal → Bool) (h1 h2 : Heap)
    (fuel : Nat) (vis : List (Nat × Nat)) (i j : Nat)
    (rest : List (JSVal × JSVal)) (f1 f2 : ObjFields)
    (ps : List (JSVal × JSVal)) (hv : (i, j) ∉ vis)
    (hl1 : lookupObj h1 i = some f1) (hl2 : lookupObj h2 j = some f2)
    (hz : zipFields f1 f2 = some ps) :
    deepEqLoop leaf h1 h2 (fuel + 1) vis ((JSVal.obj i, JSVal.obj j) :: rest) =
      deepEqLoop leaf h1 h2 fuel ((i, j) :: vis) (ps ++ rest) := by
  rw [deepEqLoop_cons_objobj, if_neg hv, hl1, hl2]
  show (match zipFields f1 f2 with
    | some qs => deepEqLoop leaf h1 h2 fuel ((i, j) :: vis) (qs ++ rest)
    | none => some false) = _
  rw [hz]

/-- Step on a fresh object pair with mismatching field shapes: failure. -/
theorem deepEqLoop_step_zipnone (leaf : JSVal → JSVal → Bool) (h1 h2 : Heap)
    (fuel : Nat) (vis : List (Nat × Nat)) (i j : Nat)
    (rest : List (JSVal × JSVal)) (f1 f2 : ObjFields) (hv : (i, j) ∉ vis)
    (hl1 : lookupObj h1 i = some f1) (hl2 : lookupObj h2 j = some f2)
    (hz : zipFields f1 f2 = none) :
    deepEqLoop leaf h1 h2 (fuel + 1) vis ((JSVal.obj i, JSVal.obj j) :: rest) =
      some false := by
  rw [deepEqLoop_cons_objobj, if_neg hv, hl1, hl2]
  show (match zipFields f1 f2 with
    | some qs => deepEqLoop leaf h1 h2 fuel ((i, j) :: vis) (qs ++ rest)
    | none => some false) = _
  rw [hz]

/-- Step on a fresh object pair dangling on both sides: treated as equal. -/
theorem deepEqLoop_step_nonenone (leaf : JSVal → JSVal → Bool) (h1 h2 : Heap)
    (fuel : Nat) (vis : List (Nat × Nat)) (i j : Nat)
    (rest : List (JSVal × JSVal)) (hv : (i, j) ∉ vis)
    (hl1 : lookupObj h1 i = none) (hl2 : lookupObj h2 j = none) :
    deepEqLoop leaf h1 h2 (fuel + 1) vis ((JSVal.obj i, JSVal.obj j) :: rest) =
      deepEqLoop leaf h1 h2 fuel vis rest := by
  rw [deepEqLoop_cons_objobj, if_neg hv, hl1, hl2]

/-- Step on a fresh object pair dangling on exactly one side: failure. -/
theorem deepEqLoop_step_mismatch (leaf : JSVal → JSVal → Bool) (h1 h2 : Heap)
    (fuel : Nat) (vis : List (Nat × Nat)) (i j : Nat)
    (rest : List (JSVal × JSVal)) (hv : (i, j) ∉ vis)
    (hmm : (lookupObj h1 i).isSome ≠ (lookupObj h2 j).isSome) :
    deepEqLoop leaf h1 h2 (fuel + 1) vis ((JSVal.obj i, JSVal.obj j) :: rest) =
      some false := by
  rw [deepEqLoop_cons_objobj, if_neg hv]
  cases hl1 : lookupObj h1 i with
  | none =>
    cases hl2 : lookupObj h2 j with
    | none =>
      rw [hl1, hl2] at hmm
      simp at hmm
    | some f2 => rfl
  | some f1 =>
    cases hl2 : lookupObj h2 j with
    | none => rfl
    | some f2 =>
      rw [hl1, hl2] at hmm
      simp at hmm

/-- Step on an already-visited object pair: treated as equal. -/
theorem deepEqLoop_step_visited (leaf : JSVal → JSVal → Bool) (h1 h2 : Heap)
    (fuel : Nat) (vis : List (Nat × Nat)) (i j : Nat)
    (rest : List (JSVal × JSVal)) (hv : (i, j) ∈ vis) :
    deepEqLoop leaf h1 h2 (fuel + 1) vis ((JSVal.obj i, JSVal.obj j) :: rest) =
      deepEqLoop leaf h1 h2 fuel vis rest := by
  rw [deepEqLoop_cons_objobj, if_pos hv]

/-- The deep walk finishes (never exhausts its budget) whenever the fuel
exceeds the number of unvisited universe pairs weighted by the heap's
maximum field count plus the worklist length — in particular on cyclic
object graphs, because every revisit of a pair is cut off by the visited
set. -/
theorem deepEqLoop_isSome (leaf : JSVal → JSVal → Bool) (h1 h2 : Heap) :
    ∀ (fuel : Nat) (vis : List (Nat × Nat)) (stack : List (JSVal × JSVal)),
    unvisited h1 h2 vis * (maxFields h1 + 1) + stack.length < fuel →
    (deepEqLoop leaf h1 h2 fuel vis stack).isSome = true := by
  intro fuel
  induction fuel with
  | zero =>
    intro vis stack h
    omega
  | succ fuel ih =>
    intro vis stack h
    cases stack with
    | nil => simp [deepEqLoop_nil]
    | cons p rest =>
      obtain ⟨a, b⟩ := p
      have hrest : unvisited h1 h2 vis * (maxFields h1 + 1) + rest.length <
          fuel := by
        simp only [List.length_cons] at h
        omega
      by_cases hop : isObjPair a b = true
      · obtain ⟨i, j, rfl, rfl⟩ := isObjPair_true a b hop
        by_cases hv : (i, j) ∈ vis
        · rw [deepEqLoop_step_visited leaf h1 h2 fuel vis i j rest hv]
          exact ih vis rest hrest
        · cases hl1 : lookupObj h1 i with
          | none =>
            cases hl2 : lookupObj h2 j with
            | none =>
              rw [deepEqLoop_step_nonenone leaf h1 h2 fuel vis i j rest hv
                hl1 hl2]
              exact ih vis rest hrest
            | some f2 =>
              rw [deepEqLoop_step_mismatch leaf h1 h2 fuel vis i j rest hv
                (by rw [hl1, hl2]; simp)]
              simp
          | some f1 =>
            cases hl2 : lookupObj h2 j with
            | none =>
              rw [deepEqLoop_step_mismatch leaf h1 h2 fuel vis i j rest hv
                (by rw [hl1, hl2]; simp)]
              simp
            | some f2 =>
              cases hz : zipFields f1 f2 with
              | none =>
                rw [deepEqLoop_step_zipnone leaf h1 h2 fuel vis i j rest f1 f2
                  hv hl1 hl2 hz]
                simp
              | some ps =>
                rw [deepEqLoop_step_push leaf h1 h2 fuel vis i j rest f1 f2 ps
                  hv hl1 hl2 hz]
                have hiu : unvisited h1 h2 ((i, j) :: vis) <
                    unvisited h1 h2 vis :=
                  unvisited_lt h1 h2 i j vis
                    (mem_allPairs h1 h2 i j
                      (lookupObj_mem_heapIds h1 i f1 hl1)
                      (lookupObj_mem_heapIds h2 j f2 hl2)) hv
                have hps : ps.length ≤ maxFields h1 := by
                  rw [zipFields_length f1 f2 ps hz]
                  exact lookupObj_length_le h1 i f1 hl1
                apply ih ((i, j) :: vis) (ps ++ rest)
                have hm2 : (unvisited h1 h2 ((i, j) :: vis) + 1) *
                    (maxFields h1 + 1) ≤
                      unvisited h1 h2 vis * (maxFields h1 + 1) :=
                  Nat.mul_le_mul_right _ (by omega)
                rw [Nat.succ_mul] at hm2
                simp only [List.length_append, List.length_cons] at h ⊢
                generalize hA : unvisited h1 h2 ((i, j) :: vis) *
                  (maxFields h1 + 1) = A at hm2 ⊢
                generalize hB : unvisited h1 h2 vis *
                  (maxFields h1 + 1) = B at hm2 h
                omega
      · have hop' : isObjPair a b = false := by simpa using hop
        rw [deepEqLoop_cons_nonobj leaf h1 h2 fuel vis a b rest hop']
        by_cases hb : leaf a b = true
        · rw [if_pos hb]
          exact ih vis rest hrest
        · rw [if_neg (by simpa using hb)]
          simp

/-- The deep walk never reports inequality when both sides are literally the
same values over the same heap: whatever result it returns on a diagonal
worklist is `true`. -/
theorem deepEqLoop_self (leaf : JSVal → JSVal → Bool)
    (hleaf : ∀ a, leaf a a = true) (h : Heap) :
    ∀ (fuel : Nat) (vis : List (Nat × Nat)) (stack : List (JSVal × JSVal)),
    (∀ p ∈ stack, p.1 = p.2) →
    ∀ r, deepEqLoop leaf h h fuel vis stack = some r → r = true := by
  intro fuel
  induction fuel with
  | zero =>
    intro vis stack hst r hr
    cases stack with
    | nil =>
      rw [deepEqLoop_nil] at hr
      injection hr with h'
      exact h'.symm
    | cons p rest => simp [deepEqLoop] at hr
  | succ fuel ih =>
    intro vis stack hst r hr
    cases stack with
    | nil =>
      rw [deepEqLoop_nil] at hr
      injection hr with h'
      exact h'.symm
    | cons p rest =>
      obtain ⟨a, b⟩ := p
      have hab : a = b := hst (a, b) (List.mem_cons_self _ _)
      subst hab
      have hrest : ∀ p ∈ rest, p.1 = p.2 := fun q hq =>
        hst q (List.mem_cons_of_mem _ hq)
      by_cases hop : isObjPair a a = true
      · obtain ⟨i, j, hi, hj⟩ := isObjPair_true a a hop
        subst hi
        injection hj with hij
        subst hij
        by_cases hv : (i, i) ∈ vis
        · rw [deepEqLoop_step_visited _ _ _ _ _ _ _ _ hv] at hr
          exact ih vis rest hrest r hr
        · cases hl : lookupObj h i with
          | none =>
            rw [deepEqLoop_step_nonenone _ _ _ _ _ _ _ _ hv hl hl] at hr
            exact ih vis rest hrest r hr
          | some f =>
            rw [deepEqLoop_step_push _ _ _ _ _ _ _ _ f f
              (f.map (fun kv => (kv.2, kv.2))) hv hl hl
              (zipFields_self f)] at hr
            refine ih ((i, i) :: vis) _ ?_ r hr
            intro q hq
            rcases List.mem_append.mp hq with hq1 | hq2
            · rcases List.mem_map.mp hq1 with ⟨kv, _, hkv⟩
              rw [← hkv]
            · exact hrest q hq2
      · have hop' : isObjPair a a = false := by simpa using hop
        rw [deepEqLoop_cons_nonobj _ _ _ _ _ _ _ _ hop',
          if_pos (hleaf a)] at hr
        exact ih vis rest hrest r hr

/-- The deep walk is symmetric: swapping the two heaps, the visited set and
every worklist pair preserves its verdict. -/
theorem deepEqLoop_swap (leaf : JSVal → JSVal → Bool)
    (hsymm : ∀ a b, leaf a b = leaf b a) (h1 h2 : Heap) :
    ∀ (fuel : Nat) (vis : List (Nat × Nat)) (stack : List (JSVal × JSVal))
      (r : Bool),
    deepEqLoop leaf h1 h2 fuel vis stack = some r →
    deepEqLoop leaf h2 h1 fuel (vis.map Prod.swap) (stack.map Prod.swap) =
      some r := by
  intro fuel
  induction fuel with
  | zero =>
    intro vis stack r hr
    cases stack with
    | nil =>
      rw [deepEqLoop_nil] at hr
      rw [List.map_nil, deepEqLoop_nil]
      exact hr
    | cons p rest => simp [deepEqLoop] at hr
  | succ fuel ih =>
    intro vis stack r hr
    cases stack with
    | nil =>
      rw [deepEqLoop_nil] at hr
      rw [List.map_nil, deepEqLoop_nil]
      exact hr
    | cons p rest =>
      obtain ⟨a, b⟩ := p
      rw [List.map_cons, Prod.swap_prod_mk]
      by_cases hop : isObjPair a b = true
      · obtain ⟨i, j, rfl, rfl⟩ := isObjPair_true a b hop
        by_cases hv : (i, j) ∈ vis
        · rw [deepEqLoop_step_visited _ _ _ _ _ _ _ _ hv] at hr
          rw [deepEqLoop_step_visited _ _ _ _ _ _ _ _
            ((mem_map_swap vis i j).mpr hv)]
          exact ih vis rest r hr
        · have hv' : (j, i) ∉ vis.map Prod.swap := fun hc =>
            hv ((mem_map_swap vis i j).mp hc)
          cases hl1 : lookupObj h1 i with
          | none =>
            cases hl2 : lookupObj h2 j with
            | none =>
              rw [deepEqLoop_step_nonenone _ _ _ _ _ _ _ _ hv hl1 hl2] at hr
              rw [deepEqLoop_step_nonenone _ _ _ _ _ _ _ _ hv' hl2 hl1]
              exact ih vis rest r hr
            | some f2 =>
              rw [deepEqLoop_step_mismatch _ _ _ _ _ _ _ _ hv
                (by rw [hl1, hl2]; simp)] at hr
              rw [deepEqLoop_step_mismatch _ _ _ _ _ _ _ _ hv'
                (by rw [hl1, hl2]; simp)]
              exact hr
          | some f1 =>
            cases hl2 : lookupObj h2 j with
            | none =>
              rw [deepEqLoop_step_mismatch _ _ _ _ _ _ _ _ hv
                (by rw [hl1, hl2]; simp)] at hr
              rw [deepEqLoop_step_mismatch _ _ _ _ _ _ _ _ hv'
                (by rw [hl1, hl2]; simp)]
              exact hr
            | some f2 =>
              cases hz : zipFields f1 f2 with
              | none =>
                rw [deepEqLoop_step_zipnone _ _ _ _ _ _ _ _ f1 f2
                  hv hl1 hl2 hz] at hr
                have hz' : zipFields f2 f1 = none := by
                  rw [zipFields_swap f1 f2, hz]
                  rfl
                rw [deepEqLoop_step_zipnone _ _ _ _ _ _ _ _ f2 f1
                  hv' hl2 hl1 hz']
                exact hr
              | some ps =>
                rw [deepEqLoop_step_push _ _ _ _ _ _ _ _ f1 f2 ps
                  hv hl1 hl2 hz] at hr
                have hz' : zipFields f2 f1 = some (ps.map Prod.swap) := by
                  rw [zipFields_swap f1 f2, hz]
                  rfl
                rw [deepEqLoop_step_push _ _ _ _ _ _ _ _ f2 f1
                  (ps.map Prod.swap) hv' hl2 hl1 hz']
                have hres := ih ((i, j) :: vis) (ps ++ rest) r hr
                simpa [List.map_append] using hres
      · have hop' : isObjPair a b = false := by simpa using hop
        have hop'' : isObjPair b a = false := by
          rw [← isObjPair_symm]
          exact hop'
        rw [deepEqLoop_cons_nonobj _ _ _ _ _ _ _ _ hop'] at hr
        rw [deepEqLoop_cons_nonobj _ _ _ _ _ _ _ _ hop'', ← hsymm a b]
        by_cases hb : leaf a b = true
        · rw [if_pos hb] at hr ⊢
          exact ih vis rest r hr
        · rw [if_neg hb] at hr ⊢
          exact hr

/-- Claim C7: the deep-equality comparison with strict leaves terminates on
every pair of structures — including object graphs with cycles back to an
ancestor — because the visited set cuts off revisits (a budget computed from
the heaps suffices); it is reflexive (never reports inequality on a value
compared with itself) and symmetric; and a pair that cycles back to an
already-visited corresponding pair is treated as equal. -/
theorem claim_c7 :
    (∀ (h1 h2 : Heap) (a b : JSVal), ∃ r,
        deepEqLoop strictEq h1 h2 (fuelFor h1 h2) [] [(a, b)] = some r)
    ∧ (∀ (h : Heap) (a : JSVal) (fuel : Nat) (r : Bool),
        deepEqLoop strictEq h h fuel [] [(a, a)] = some r → r = true)
    ∧ (∀ (h1 h2 : Heap) (a b : JSVal) (fuel : Nat) (r : Bool),
        deepEqLoop strictEq h1 h2 fuel [] [(a, b)] = some r →
          deepEqLoop strictEq h2 h1 fuel [] [(b, a)] = some r)
    ∧ (∀ (h1 h2 : Heap) (i j : Nat) (vis : List (Nat × Nat)) (fuel : Nat),
        (i, j) ∈ vis →
          deepEqLoop strictEq h1 h2 (fuel + 2) vis
            [(JSVal.obj i, JSVal.obj j)] = some true) := by
  refine ⟨?_, ?_, ?_, ?_⟩
  · intro h1 h2 a b
    have hm : unvisited h1 h2 [] * (maxFields h1 + 1) +
        ([(a, b)] : List (JSVal × JSVal)).length < fuelFor h1 h2 := by
      rw [unvisited_nil]
      simp only [fuelFor, List.length_cons, List.length_nil]
      generalize (allPairs h1 h2).length * (maxFields h1 + 1) = P
      omega
    have hs := deepEqLoop_isSome strictEq h1 h2 (fuelFor h1 h2) [] [(a, b)] hm
    obtain ⟨r, hr⟩ := Option.isSome_iff_exists.mp hs
    exact ⟨r, hr⟩
  · intro h a fuel r hr
    exact deepEqLoop_self strictEq strictEq_refl h fuel [] [(a, a)]
      (by simp) r hr
  · intro h1 h2 a b fuel r hr
    have hres := deepEqLoop_swap strictEq strictEq_symm h1 h2 fuel [] [(a, b)]
      r hr
    simpa using hres
  · intro h1 h2 i j vis fuel hv
    rw [deepEqLoop_step_visited _ _ _ _ _ _ _ _ hv, deepEqLoop_nil]

/-- Concrete instance of claim C7: on a one-object heap whose single field
refers back to the object itself, comparing the cyclic object against itself
with its pair already visited succeeds at once. -/
theorem claim_c7_witness :
    deepEqLoop strictEq [(0, [("self", JSVal.obj 0)])]
        [(0, [("self", JSVal.obj 0)])] 2 [(0, 0)]
        [(JSVal.obj 0, JSVal.obj 0)] = some true :=
  claim_c7.2.2.2 [(0, [("self", JSVal.obj 0)])] [(0, [("self", JSVal.obj 0)])]
    0 0 [(0, 0)] 0 (by decide)

/-- Claim C8: each negated assertion variant records an `ok` that is exactly
the boolean negation of the `ok` its corresponding positive comparison would
record, with the description message unaltered; and all the negated aliases
record the same outcome as their primary negated form. -/
theorem claim_c8 (h1 h2 : Heap) (s : UnitState) (a e : JSVal)
    (msg : Option String) (hd : s.finished = false) :
    ((equal s a e msg).records =
        s.records ++ [⟨strictEq a e, false, msg, "equal"⟩]
      ∧ (notEqual s a e msg).records =
        s.records ++ [⟨!(strictEq a e), false, msg, "notEqual"⟩])
    ∧ ((deepEqual h1 h2 s a e msg).records =
        s.records ++ [⟨deepEqB h1 h2 a e, false, msg, "deepEqual"⟩]
      ∧ (notDeepEqual h1 h2 s a e msg).records =
        s.records ++ [⟨!(deepEqB h1 h2 a e), false, msg, "notDeepEqual"⟩])
    ∧ ((deepLooseEqual h1 h2 s a e msg).records =
        s.records ++ [⟨deepLooseEqB h1 h2 a e, false, msg, "deepLooseEqual"⟩]
      ∧ (notDeepLooseEqual h1 h2 s a e msg).records =
        s.records ++ [⟨!(deepLooseEqB h1 h2 a e), false, msg, "notDeepLooseEqual"⟩])
    ∧ (notEquals s a e msg = notEqual s a e msg
      ∧ notStrictEqual s a e msg = notEqual s a e msg
      ∧ notStrictEquals s a e msg = notEqual s a e msg
      ∧ isNotEqual s a e msg = notEqual s a e msg
      ∧ isNot s a e msg = notEqual s a e msg
      ∧ TypedTape.not s a e msg = notEqual s a e msg
      ∧ doesNotEqual s a e msg = notEqual s a e msg
      ∧ isInequal s a e msg = notEqual s a e msg)
    ∧ (notEquivalent h1 h2 s a e msg = notDeepEqual h1 h2 s a e msg
      ∧ notDeeply h1 h2 s a e msg = notDeepEqual h1 h2 s a e msg
      ∧ notSame h1 h2 s a e msg = notDeepEqual h1 h2 s a e msg
      ∧ isNotDeepEqual h1 h2 s a e msg = notDeepEqual h1 h2 s a e msg
      ∧ isNotDeeply h1 h2 s a e msg = notDeepEqual h1 h2 s a e msg
      ∧ isNotEquivalent h1 h2 s a e msg = notDeepEqual h1 h2 s a e msg
      ∧ isInequivalent h1 h2 s a e msg = notDeepEqual h1 h2 s a e msg)
    ∧ (notLooseEqual h1 h2 s a e msg = notDeepLooseEqual h1 h2 s a e msg
      ∧ notLooseEquals h1 h2 s a e msg = notDeepLooseEqual h1 h2 s a e msg) := by
  refine ⟨⟨?_, ?_⟩, ⟨?_, ?_⟩, ⟨?_, ?_⟩,
    ⟨rfl, rfl, rfl, rfl, rfl, rfl, rfl, rfl⟩,
    ⟨rfl, rfl, rfl, rfl, rfl, rfl, rfl⟩, ⟨rfl, rfl⟩⟩ <;>
    simp [equal, notEqual, deepEqual, notDeepEqual, deepLooseEqual,
      notDeepLooseEqual, doAssert, doRecord, rawRecord, hd]

/-- Concrete instance of claim C8: `notEqual` on two identical numbers
records the negation of the `ok` that `equal` records, with the message
untouched. -/
theorem claim_c8_witness :
    (equal initState (JSVal.number 1) (JSVal.number 1) (some "m")).records =
        [] ++ [⟨strictEq (JSVal.number 1) (JSVal.number 1), false, some "m", "equal"⟩]
    ∧ (notEqual initState (JSVal.number 1) (JSVal.number 1) (some "m")).records =
        [] ++ [⟨!(strictEq (JSVal.number 1) (JSVal.number 1)), false, some "m", "notEqual"⟩] :=
  (claim_c8 [] [] initState (JSVal.number 1) (JSVal.number 1) (some "m") rfl).1

/-- Concrete instance of claim C1 at plan 2 with three assertion calls: the
unit is finished after the second call and the third call is recorded as the
synthetic after-end failure. -/
theorem claim_c1_witness :
    ((runAsserts (planInit 2) [true, true, false]).finished = decide (2 ≤ 3))
    ∧ (runAsserts (planInit 2) [true, true, false]).records[2]? =
        some afterEndRec :=
  ⟨(claim_c1 2 [true, true, false]).1,
   (claim_c1 2 [true, true, false]).2.2.1 2 (by decide) (by decide)⟩






